import Mathlib

/-!
Shallow embedding of the emulation core of `emu.py`: the CPU (registers,
flat 64 KiB memory, opcode dispatch), the PPU tile renderer, and the
frame scheduler loop. Python bytearray indexing raises on out-of-range
indices, so every memory access is modelled as an `Option`; machine
values are `Nat` with explicit masking exactly where the source masks.
-/

/-- The CPU state: the register dictionary from `CPU.__init__`
(`A`, `X`, `Y`, `PC`, `SP`, `P`), the 64 KiB `memory` bytearray
(modelled as a function from addresses to byte values), the
`clock_cycles` counter and the `running` flag. -/
structure CPU where
  A : Nat
  X : Nat
  Y : Nat
  PC : Nat
  SP : Nat
  P : Nat
  memory : Nat → Nat
  clock_cycles : Nat
  running : Bool

/-- `CPU.__init__`: A=X=Y=P=0, PC=0x8000, SP=0x1FF, zeroed memory,
zero clock, running. -/
def initCPU : CPU :=
  { A := 0, X := 0, Y := 0, PC := 0x8000, SP := 0x1FF, P := 0
    memory := fun _ => 0, clock_cycles := 0, running := true }

/-- `fetch_byte`: read `memory[PC]` (raises, i.e. `none`, when PC is out
of the 64 KiB range, as Python bytearray indexing does), then `PC += 1`
with no masking, exactly as the source. -/
def CPU.fetch_byte (c : CPU) : Option (Nat × CPU) :=
  if c.PC < 0x10000 then
    some (c.memory c.PC, { c with PC := c.PC + 1 })
  else none

/-- `read_byte(address)`: bytearray read, `none` out of range. -/
def CPU.read_byte (c : CPU) (address : Nat) : Option Nat :=
  if address < 0x10000 then some (c.memory address) else none

/-- `read_word(address)`: little-endian, `(hi << 8) | lo`. -/
def CPU.read_word (c : CPU) (address : Nat) : Option Nat := do
  let lo ← c.read_byte address
  let hi ← c.read_byte (address + 1)
  pure ((hi <<< 8) ||| lo)

/-- `write_byte(address, value)`: stores `value & 0xFF`. -/
def CPU.write_byte (c : CPU) (address value : Nat) : Option CPU :=
  if address < 0x10000 then
    some { c with memory := fun a => if a = address then value &&& 0xFF else c.memory a }
  else none

/-- `write_word(address, value)`: low byte at `address`, `(value >> 8) & 0xFF`
at `address + 1`. -/
def CPU.write_word (c : CPU) (address value : Nat) : Option CPU := do
  let c1 ← c.write_byte address value
  c1.write_byte (address + 1) ((value >>> 8) &&& 0xFF)

/-- The pure flag computation of `update_flags`: clear Z (bit 1) and
N (bit 7) with `P &= 0x7D`, then set Z iff the value is zero and N iff
bit 7 of the value is set. -/
def updateFlags (p v : Nat) : Nat :=
  let p1 := p &&& 0x7D
  let p2 := if v = 0 then p1 ||| 0x02 else p1
  if v &&& 0x80 ≠ 0 then p2 ||| 0x80 else p2

/-- `CPU.update_flags`: apply the flag computation to the P register. -/
def CPU.update_flags (c : CPU) (value : Nat) : CPU :=
  { c with P := updateFlags c.P value }

/-- `LDA_immediate` (0xA9): fetch operand, A := operand, update flags, 2 cycles. -/
def CPU.LDA_immediate (c : CPU) : Option (Nat × CPU) := do
  let (value, c1) ← c.fetch_byte
  pure (2, ({ c1 with A := value }).update_flags value)

/-- `LDA_absolute` (0xAD): fetch little-endian address, A := memory[addr],
update flags, 4 cycles. -/
def CPU.LDA_absolute (c : CPU) : Option (Nat × CPU) := do
  let (lo, c1) ← c.fetch_byte
  let (hi, c2) ← c1.fetch_byte
  let addr := lo ||| (hi <<< 8)
  let value ← c2.read_byte addr
  pure (4, ({ c2 with A := value }).update_flags value)

/-- `STA_absolute` (0x8D): fetch little-endian address, memory[addr] := A,
4 cycles. -/
def CPU.STA_absolute (c : CPU) : Option (Nat × CPU) := do
  let (lo, c1) ← c.fetch_byte
  let (hi, c2) ← c1.fetch_byte
  let addr := lo ||| (hi <<< 8)
  let c3 ← c2.write_byte addr c2.A
  pure (4, c3)

/-- `JMP_absolute` (0x4C): fetch little-endian address, PC := addr, 3 cycles. -/
def CPU.JMP_absolute (c : CPU) : Option (Nat × CPU) := do
  let (lo, c1) ← c.fetch_byte
  let (hi, c2) ← c1.fetch_byte
  pure (3, { c2 with PC := lo ||| (hi <<< 8) })

/-- `NOP` (0xEA): 2 cycles, no effect. -/
def CPU.NOP (c : CPU) : Option (Nat × CPU) :=
  some (2, c)

/-- `BRK` (0x00): running := False, 7 cycles. -/
def CPU.BRK (c : CPU) : Option (Nat × CPU) :=
  some (7, { c with running := false })

/-- The `opcodes` dispatch dictionary built in `CPU.__init__`. -/
def CPU.opcodeHandler (op : Nat) : Option (CPU → Option (Nat × CPU)) :=
  if op = 0xA9 then some CPU.LDA_immediate
  else if op = 0xAD then some CPU.LDA_absolute
  else if op = 0x8D then some CPU.STA_absolute
  else if op = 0x4C then some CPU.JMP_absolute
  else if op = 0xEA then some CPU.NOP
  else if op = 0x00 then some CPU.BRK
  else none

/-- `execute()`: fetch the opcode byte, dispatch through the opcode table;
a handled opcode runs its handler and adds its cycle count to
`clock_cycles`, an unknown opcode returns 0 cycles with no further effect. -/
def CPU.execute (c : CPU) : Option (Nat × CPU) := do
  let (op, c1) ← c.fetch_byte
  match CPU.opcodeHandler op with
  | some handler => do
      let (cycles, c2) ← handler c1
      pure (cycles, { c2 with clock_cycles := c2.clock_cycles + cycles })
  | none => pure (0, c1)

/-- `reset()`: PC := the little-endian word at the reset vector 0xFFFC. -/
def CPU.reset (c : CPU) : Option CPU := do
  let w ← c.read_word 0xFFFC
  pure { c with PC := w }

/-- Byte-invariant of the Python bytearray plus the A register: every
memory cell and A hold a value in [0, 255]. -/
def CPU.Inv (c : CPU) : Prop :=
  (∀ a, c.memory a < 256) ∧ c.A < 256

/-- An RGB triple, as stored in the palette list. -/
abbrev RGB : Type := Nat × Nat × Nat

/-- One rectangle painted by `render_tile` on the canvas: its pixel
coordinates, the 2-bit color index that selected its color, and the RGB
color looked up in the palette. -/
structure Pixel where
  px : Nat
  py : Nat
  idx : Nat
  color : RGB
deriving DecidableEq

/-- The PPU state from `PPU.__init__`: the 32 KiB `vram` bytearray and
the `palette` list of RGB triples. -/
structure PPU where
  vram : Nat → Nat
  palette : List RGB

/-- `PPU.__init__`: zeroed 32 KiB vram, palette of 256 black entries. -/
def initPPU : PPU :=
  { vram := fun _ => 0, palette := List.replicate 256 ((0 : Nat), (0 : Nat), (0 : Nat)) }

/-- A vram bytearray read; `none` when the index is outside the 32 KiB
array, as Python raises. -/
def PPU.vramRead (p : PPU) (address : Nat) : Option Nat :=
  if address < 0x8000 then some (p.vram address) else none

/-- A palette list lookup; `none` when the index is out of range, as
Python raises. -/
def paletteLookup (pal : List RGB) (i : Nat) : Option RGB :=
  pal.get? i

/-- The color-index computation of `render_tile` for column `tx` of a row
with bitplane bytes `plane0`, `plane1`:
`((plane1 >> bit) & 1) << 1 | ((plane0 >> bit) & 1)` with `bit = 7 - tx`. -/
def decodeColorIdx (plane0 plane1 tx : Nat) : Nat :=
  (((plane1 >>> (7 - tx)) &&& 1) <<< 1) ||| ((plane0 >>> (7 - tx)) &&& 1)

/-- The inner column loop of `render_tile` over the listed columns: paint
one rectangle per column whose color index is positive, with the palette
color of that index; transparent columns (index 0) paint nothing. -/
def renderRowCols (pal : List RGB) (x y ty plane0 plane1 : Nat) :
    List Nat → Option (List Pixel)
  | [] => some []
  | tx :: rest =>
    let idx := decodeColorIdx plane0 plane1 tx
    if 0 < idx then
      match paletteLookup pal idx with
      | none => none
      | some color =>
        match renderRowCols pal x y ty plane0 plane1 rest with
        | none => none
        | some l => some (⟨x + tx, y + ty, idx, color⟩ :: l)
    else renderRowCols pal x y ty plane0 plane1 rest

/-- One row of `render_tile`: the column loop over tx = 0..7. -/
def renderRow (pal : List RGB) (x y ty plane0 plane1 : Nat) : Option (List Pixel) :=
  renderRowCols pal x y ty plane0 plane1 (List.range 8)

/-- The row loop of `render_tile` over the listed rows: row `ty` reads
its two plane bytes at `tile_addr + 2*ty` and `tile_addr + 2*ty + 1`
(the source advances `tile_addr` by 2 each row). -/
def PPU.renderTileRows (p : PPU) (x y tile_addr : Nat) :
    List Nat → Option (List Pixel)
  | [] => some []
  | ty :: rest => do
    let plane0 ← p.vramRead (tile_addr + 2 * ty)
    let plane1 ← p.vramRead (tile_addr + 2 * ty + 1)
    let row ← renderRow p.palette x y ty plane0 plane1
    let rest2 ← p.renderTileRows x y tile_addr rest
    pure (row ++ rest2)

/-- `render_tile(x, y, tile_idx)`: 16 pattern bytes starting at
`tile_idx * 16`, 8 rows of 8 columns. -/
def PPU.render_tile (p : PPU) (x y tile_idx : Nat) : Option (List Pixel) :=
  p.renderTileRows x y (tile_idx * 16) (List.range 8)

/-- The cell loop of `render_frame` over the listed (row, column) cells:
read the tile index at `y * 32 + x` and render that tile at pixel origin
`(x * 8, y * 8)`. -/
def PPU.renderCells (p : PPU) : List (Nat × Nat) → Option (List Pixel)
  | [] => some []
  | (y, x) :: rest => do
    let tile_idx ← p.vramRead (y * 32 + x)
    let tile ← p.render_tile (x * 8) (y * 8) tile_idx
    let rest2 ← p.renderCells rest
    pure (tile ++ rest2)

/-- The 32×28 background grid of `render_frame`, row-major. -/
def cellList : List (Nat × Nat) :=
  (List.range 28).flatMap fun y => (List.range 32).map fun x => (y, x)

/-- `render_frame()`: clear the canvas (the result list is the full
post-clear canvas contents) and render every background tile cell. -/
def PPU.render_frame (p : PPU) : Option (List Pixel) :=
  p.renderCells cellList

/-- The `SNESEmulator` state that the scheduler manipulates: the CPU,
the PPU, and the emulator-level `running` flag. -/
structure SNESEmulator where
  cpu : CPU
  ppu : PPU
  running : Bool

/-- Result of the cycle-budget loop in `run_frame`: normal exit with the
final CPU, accumulated cycles and number of `execute()` calls; `err`
when an `execute()` call raised; `fuelOut` when the modelling fuel ran
out (the Python loop is unbounded). -/
inductive LoopOut where
  | ok (cpu : CPU) (cycles : Nat) (count : Nat)
  | err
  | fuelOut
deriving Inhabited

/-- The `while cycles < target_cycles and self.cpu.running` loop of
`run_frame`, with `target_cycles = 1364`; `count` counts `execute()`
calls. -/
def frameLoop (fuel : Nat) (c : CPU) (cycles count : Nat) : LoopOut :=
  match fuel with
  | 0 => LoopOut.fuelOut
  | fuel + 1 =>
    if cycles < 1364 ∧ c.running = true then
      match c.execute with
      | none => LoopOut.err
      | some (k, c2) => frameLoop fuel c2 (cycles + k) (count + 1)
    else LoopOut.ok c cycles count

/-- Observable outcome of one `run_frame` tick: the updated emulator,
how many `execute()` calls the tick issued, the render passes performed
(one `render_frame` output per pass), whether `root.after` rescheduled
the tick, whether the tick aborted with an exception, and whether the
model ran out of fuel. -/
structure FrameResult where
  emu : SNESEmulator
  execCount : Nat
  renders : List (Option (List Pixel))
  rescheduled : Bool
  faulted : Bool
  outOfFuel : Bool

/-- `run_frame()`: return immediately when the emulator is paused
(no execution, no render, no reschedule); otherwise run the cycle-budget
loop, then render exactly once and reschedule unconditionally. An
exception escaping `execute()` aborts the tick before the render. -/
def SNESEmulator.run_frame (fuel : Nat) (e : SNESEmulator) : FrameResult :=
  if e.running = false then
    { emu := e, execCount := 0, renders := [], rescheduled := false
      faulted := false, outOfFuel := false }
  else
    match frameLoop fuel e.cpu 0 0 with
    | LoopOut.ok c _ count =>
      { emu := { e with cpu := c }, execCount := count
        renders := [e.ppu.render_frame], rescheduled := true
        faulted := false, outOfFuel := false }
    | LoopOut.err =>
      { emu := e, execCount := 0, renders := [], rescheduled := false
        faulted := true, outOfFuel := false }
    | LoopOut.fuelOut =>
      { emu := e, execCount := 0, renders := [], rescheduled := false
        faulted := false, outOfFuel := true }

/-- `start()`: when not running, set the emulator running and set
`self.cpu.running = True`, then kick off `run_frame`. -/
def SNESEmulator.start (e : SNESEmulator) : SNESEmulator :=
  if e.running = false then
    { e with running := true, cpu := { e.cpu with running := true } }
  else e

/-- `stop()`: when running, clear the emulator running flag. -/
def SNESEmulator.stop (e : SNESEmulator) : SNESEmulator :=
  if e.running = true then { e with running := false } else e

/-- A CPU state transition performed by the core's mutating entry
points: a successful `execute()`, `write_byte` or `write_word` call. -/
inductive EmuStep : CPU → CPU → Prop where
  | exec (k : Nat) (c c2 : CPU) : c.execute = some (k, c2) → EmuStep c c2
  | wbyte (a v : Nat) (c c2 : CPU) : c.write_byte a v = some c2 → EmuStep c c2
  | wword (a v : Nat) (c c2 : CPU) : c.write_word a v = some c2 → EmuStep c c2

/-- A freshly constructed CPU whose memory is filled with the unknown
opcode 0xFF and whose PC is 0. -/
def cffCpu : CPU :=
  { initCPU with PC := 0, memory := fun _ => 0xFF }

/-- A CPU about to fetch at the last address 0xFFFF, where an
LDA-immediate opcode is stored. -/
def wrapCpu : CPU :=
  { initCPU with PC := 0xFFFF, memory := fun a => if a = 0xFFFF then 0xA9 else 0 }

/-- A CPU whose program is `JMP $8000` stored at 0x8000 (the loop of the
source's demo program). -/
def jmpLoopCpu : CPU :=
  { initCPU with
    memory := fun a =>
      if a = 0x8000 then 0x4C else if a = 0x8001 then 0x00
      else if a = 0x8002 then 0x80 else 0 }

/-- A CPU about to execute BRK (memory is all zeroes). -/
def brkCpu : CPU :=
  { initCPU with memory := fun _ => 0 }

/-- A running emulator whose CPU memory is all NOPs. -/
def nopEmu : SNESEmulator :=
  { cpu := { initCPU with memory := fun _ => 0xEA }, ppu := initPPU, running := true }

/-- A running emulator whose CPU has halted (BRK was executed). -/
def haltedEmu : SNESEmulator :=
  { cpu := { initCPU with running := false }, ppu := initPPU, running := true }

/-- A paused emulator whose CPU has halted. -/
def pausedHaltedEmu : SNESEmulator :=
  { haltedEmu with running := false }

/-- The four-color palette installed by `setup_test_environment`:
black, red, green, blue. -/
def fourPal : List RGB :=
  [((0 : Nat), (0 : Nat), (0 : Nat)), ((255 : Nat), (0 : Nat), (0 : Nat)),
   ((0 : Nat), (255 : Nat), (0 : Nat)), ((0 : Nat), (0 : Nat), (255 : Nat))]

theorem initCPU_inv : CPU.Inv initCPU := by
  refine ⟨fun a => ?_, ?_⟩
  · show (0 : Nat) < 256
    decide
  · decide

theorem fetch_byte_eq (c : CPU) (h : c.PC < 0x10000) :
    c.fetch_byte = some (c.memory c.PC, { c with PC := c.PC + 1 }) := by
  simp [CPU.fetch_byte, h]

theorem execute_unknown (c : CPU) (h : c.PC < 0x10000)
    (hop : CPU.opcodeHandler (c.memory c.PC) = none) :
    c.execute = some (0, { c with PC := c.PC + 1 }) := by
  simp [CPU.execute, fetch_byte_eq c h, hop]

theorem execute_nop (c : CPU) (h : c.PC < 0x10000)
    (hm : c.memory c.PC = 0xEA) :
    c.execute = some (2,
      { c with PC := c.PC + 1, clock_cycles := c.clock_cycles + 2 }) := by
  simp [CPU.execute, fetch_byte_eq c h, hm, CPU.opcodeHandler, CPU.NOP]

theorem execute_brk (c : CPU) (h : c.PC < 0x10000)
    (hm : c.memory c.PC = 0x00) :
    c.execute = some (7,
      { c with PC := c.PC + 1, running := false, clock_cycles := c.clock_cycles + 7 }) := by
  simp [CPU.execute, fetch_byte_eq c h, hm, CPU.opcodeHandler, CPU.BRK]

theorem execute_jmp (c : CPU) (lo hi : Nat) (h : c.PC + 2 < 0x10000)
    (h0 : c.memory c.PC = 0x4C) (h1 : c.memory (c.PC + 1) = lo)
    (h2 : c.memory (c.PC + 2) = hi) :
    c.execute = some (3,
      { c with PC := lo ||| (hi <<< 8), clock_cycles := c.clock_cycles + 3 }) := by
  have hp : c.PC < 0x10000 := by omega
  have hp1 : c.PC + 1 < 0x10000 := by omega
  have hp2 : c.PC + 2 < 0x10000 := h
  simp [CPU.execute, CPU.fetch_byte, CPU.JMP_absolute, CPU.opcodeHandler,
    hp, hp1, hp2, h0, h1, h2]

/-- Claim C1, counterexample: executing the unknown opcode 0xFF from
PC = 0 does not leave PC unchanged — the opcode fetch advances PC to 1,
so the claim that all registers including PC are unchanged is false. -/
theorem claim1_counterexample :
    (CPU.execute cffCpu).map (fun q => q.2.PC) = some 1 ∧ cffCpu.PC = 0 ∧
    (CPU.execute cffCpu).map (fun q => q.2.PC) ≠ some cffCpu.PC := by
  refine ⟨rfl, rfl, ?_⟩
  decide

/-- Claim C1 (amended): executing an opcode byte with no registered
handler returns 0 cycles and leaves A, X, Y, SP, P, the clock and all
memory unchanged, while PC advances by exactly one so that execution
continues at the next byte. -/
theorem claim1_unknown_opcode (c : CPU) (h : c.PC < 0x10000)
    (hop : CPU.opcodeHandler (c.memory c.PC) = none) :
    c.execute = some (0, { c with PC := c.PC + 1 }) :=
  execute_unknown c h hop

/-- Claim C1, witness: the amended theorem evaluated on the concrete
all-0xFF CPU. -/
theorem claim1_witness :
    CPU.execute cffCpu = some (0, { cffCpu with PC := cffCpu.PC + 1 }) :=
  claim1_unknown_opcode cffCpu (by decide) rfl

/-- Claim C2, counterexample: with PC = 0xFFFF and an LDA-immediate
opcode stored there, `execute()` fails with an out-of-bounds access
(the operand fetch indexes memory at 0x10000), and the opcode fetch
itself leaves PC = 0x10000 rather than wrapping to 0x0000. -/
theorem claim2_counterexample :
    CPU.execute wrapCpu = none ∧
    (wrapCpu.fetch_byte).map (fun q => q.2.PC) = some 0x10000 :=
  ⟨rfl, rfl⟩

/-- Claim C2 (amended): a fetch at PC = 0xFFFF itself succeeds, reading
memory[0xFFFF], but PC arithmetic is not masked: the fetch leaves
PC = 0x10000, and the next fetch from that state fails out of bounds
instead of continuing at 0x0000, so `execute()` can raise. -/
theorem claim2_fetch_no_wrap (c : CPU) (h : c.PC = 0xFFFF) :
    c.fetch_byte = some (c.memory 0xFFFF, { c with PC := 0x10000 }) ∧
    (c.fetch_byte.bind fun q => q.2.fetch_byte) = none := by
  constructor
  · simp [CPU.fetch_byte, h]
  · simp [CPU.fetch_byte, h]

/-- Claim C2, witness: the amended theorem evaluated on the concrete
CPU with PC = 0xFFFF. -/
theorem claim2_witness :
    wrapCpu.fetch_byte = some (wrapCpu.memory 0xFFFF, { wrapCpu with PC := 0x10000 }) ∧
    (wrapCpu.fetch_byte.bind fun q => q.2.fetch_byte) = none :=
  claim2_fetch_no_wrap wrapCpu rfl

/-- Claim C7: executing `JMP absolute` (opcode 0x4C followed by a
little-endian 16-bit address) sets PC to exactly that address and
returns 3 cycles; and when the jump target holds the same JMP
instruction, executing again from the resulting state yields the same
PC (idempotence). -/
theorem claim7_jmp_idempotent (c : CPU) (lo hi : Nat) (h : c.PC + 2 < 0x10000)
    (h0 : c.memory c.PC = 0x4C) (h1 : c.memory (c.PC + 1) = lo)
    (h2 : c.memory (c.PC + 2) = hi) :
    (c.execute).map (fun q => (q.1, q.2.PC)) = some (3, lo ||| (hi <<< 8)) ∧
    ((lo ||| (hi <<< 8)) + 2 < 0x10000 →
      c.memory (lo ||| (hi <<< 8)) = 0x4C →
      c.memory ((lo ||| (hi <<< 8)) + 1) = lo →
      c.memory ((lo ||| (hi <<< 8)) + 2) = hi →
      (c.execute.bind fun q => q.2.execute).map (fun q => (q.1, q.2.PC)) =
        some (3, lo ||| (hi <<< 8))) := by
  have e1 := execute_jmp c lo hi h h0 h1 h2
  constructor
  · simp [e1]
  · intro hb j0 j1 j2
    have e2 := execute_jmp
      { c with PC := lo ||| (hi <<< 8), clock_cycles := c.clock_cycles + 3 }
      lo hi hb j0 j1 j2
    simp [e1, e2]

/-- Claim C7, witness: the theorem evaluated on the demo program's
`JMP $8000` loop at 0x8000. -/
theorem claim7_witness :
    ((CPU.execute jmpLoopCpu).bind fun q => q.2.execute).map (fun q => (q.1, q.2.PC)) =
      some (3, 0 ||| (0x80 <<< 8)) :=
  (claim7_jmp_idempotent jmpLoopCpu 0 0x80 (by decide) rfl rfl rfl).2
    (by decide) rfl rfl rfl

/-- Claim C8: `reset()` sets PC to the little-endian 16-bit word stored
at address 0xFFFC and changes nothing else — A, X, Y, SP, P, the clock,
the running flag and all memory contents are exactly as before. -/
theorem claim8_reset (c : CPU) :
    c.reset = some { c with PC := (c.memory 0xFFFD) <<< 8 ||| c.memory 0xFFFC } := by
  simp [CPU.reset, CPU.read_word, CPU.read_byte]

theorem updateFlags_lt (p v : Nat) : updateFlags p v < 256 := by
  unfold updateFlags
  have h1 : p &&& 0x7D < 2 ^ 8 := Nat.and_lt_two_pow p (by norm_num)
  have h2 : (0x02 : Nat) < 2 ^ 8 := by norm_num
  have h8 : (0x80 : Nat) < 2 ^ 8 := by norm_num
  split_ifs <;>
    simp only [] <;>
    first
      | exact Nat.or_lt_two_pow (Nat.or_lt_two_pow h1 h2) h8
      | exact Nat.or_lt_two_pow h1 h8
      | exact Nat.or_lt_two_pow h1 h2
      | exact h1

theorem updateFlags_testBit (p v i : Nat) :
    (updateFlags p v).testBit i =
      ((p.testBit i && (0x7D : Nat).testBit i) ||
       (decide (v = 0) && (0x02 : Nat).testBit i) ||
       (decide (v &&& 0x80 ≠ 0) && (0x80 : Nat).testBit i)) := by
  unfold updateFlags
  by_cases hz : v = 0 <;> by_cases hn : v &&& 0x80 ≠ 0 <;>
    simp [hz, hn, Nat.testBit_or, Nat.testBit_and, Bool.or_assoc]

/-- Claim C3: for every byte value v and every byte value of the P
register, `update_flags(v)` sets the Zero flag (bit 1) iff v = 0, sets
the Negative flag (bit 7) iff v & 0x80 is nonzero — both independent of
the flags' previous state — and leaves every other bit of P unchanged. -/
theorem claim3_update_flags (p v : Nat) (hp : p < 256) (hv : v < 256) :
    ((updateFlags p v).testBit 1 = true ↔ v = 0) ∧
    ((updateFlags p v).testBit 7 = true ↔ v &&& 0x80 ≠ 0) ∧
    ∀ i, i ≠ 1 → i ≠ 7 → (updateFlags p v).testBit i = p.testBit i := by
  refine ⟨?_, ?_, ?_⟩
  · rw [updateFlags_testBit p v 1]
    have a1 : (0x7D : Nat).testBit 1 = false := by decide
    have a2 : (0x02 : Nat).testBit 1 = true := by decide
    have a3 : (0x80 : Nat).testBit 1 = false := by decide
    simp [a1, a2, a3]
  · rw [updateFlags_testBit p v 7]
    have a1 : (0x7D : Nat).testBit 7 = false := by decide
    have a2 : (0x02 : Nat).testBit 7 = false := by decide
    have a3 : (0x80 : Nat).testBit 7 = true := by decide
    simp [a1, a2, a3]
  · intro i h1i h7i
    by_cases hi : i < 8
    · have h7D : ∀ j < 8, j ≠ 1 → j ≠ 7 → (0x7D : Nat).testBit j = true := by decide
      have h02 : ∀ j < 8, j ≠ 1 → (0x02 : Nat).testBit j = false := by decide
      have h80 : ∀ j < 8, j ≠ 7 → (0x80 : Nat).testBit j = false := by decide
      rw [updateFlags_testBit p v i, h7D i hi h1i h7i, h02 i hi h1i, h80 i hi h7i]
      simp
    · have hpow : (256 : Nat) ≤ 2 ^ i := by
        calc (256 : Nat) = 2 ^ 8 := by norm_num
        _ ≤ 2 ^ i := Nat.pow_le_pow_right (by norm_num) (by omega)
      have hl : updateFlags p v < 2 ^ i :=
        lt_of_lt_of_le (updateFlags_lt p v) hpow
      have hr : p < 2 ^ i := lt_of_lt_of_le hp hpow
      rw [Nat.testBit_lt_two_pow hl, Nat.testBit_lt_two_pow hr]

/-- Claim C3, witness: the theorem evaluated at P = 0x41, v = 0. -/
theorem claim3_witness :
    Nat.testBit (updateFlags 0x41 0) 1 = true ∧
    Nat.testBit (updateFlags 0x41 0) 0 = Nat.testBit 0x41 0 :=
  ⟨(claim3_update_flags 0x41 0 (by decide) (by decide)).1.mpr rfl,
   (claim3_update_flags 0x41 0 (by decide) (by decide)).2.2 0 (by decide) (by decide)⟩

theorem frameLoop_succ (f : Nat) (c : CPU) (cy ct : Nat) :
    frameLoop (f + 1) c cy ct =
      if cy < 1364 ∧ c.running = true then
        match c.execute with
        | none => LoopOut.err
        | some (k, c2) => frameLoop f c2 (cy + k) (ct + 1)
      else LoopOut.ok c cy ct := rfl

/-- Claim C4, counterexample: with the CPU halted and the emulator
running, a `run_frame` tick still renders and still reschedules itself
(`root.after` is called unconditionally after the render), and `start()`
on a paused emulator sets the halted CPU's running flag back to true —
both contradicting "never reschedules until a reset rebuilds the CPU"
and "start() alone does not clear the halt". -/
theorem claim4_counterexample :
    (haltedEmu.run_frame 1).rescheduled = true ∧
    (haltedEmu.run_frame 1).renders.length = 1 ∧
    (SNESEmulator.start pausedHaltedEmu).cpu.running = true :=
  ⟨rfl, rfl, rfl⟩

/-- Claim C4 (amended): BRK sets the CPU's halted state and consumes 7
cycles; while the CPU is halted a scheduler tick issues zero `execute()`
calls, but it still performs its render pass and still reschedules the
next tick; and `start()` on a paused emulator clears the halt by setting
the CPU running again (no reset required). -/
theorem claim4_brk_halts :
    (∀ c : CPU, c.PC < 0x10000 → c.memory c.PC = 0x00 →
      c.execute = some (7,
        { c with PC := c.PC + 1, running := false, clock_cycles := c.clock_cycles + 7 })) ∧
    (∀ (fuel : Nat) (e : SNESEmulator), 0 < fuel → e.running = true →
      e.cpu.running = false →
      (e.run_frame fuel).execCount = 0 ∧ (e.run_frame fuel).renders.length = 1 ∧
        (e.run_frame fuel).rescheduled = true) ∧
    (∀ e : SNESEmulator, e.running = false → (e.start).cpu.running = true) := by
  refine ⟨fun c h hm => execute_brk c h hm, ?_, ?_⟩
  · intro fuel e hf hr hcr
    obtain ⟨f, rfl⟩ : ∃ f, fuel = f + 1 := ⟨fuel - 1, by omega⟩
    have hl : frameLoop (f + 1) e.cpu 0 0 = LoopOut.ok e.cpu 0 0 := by
      rw [frameLoop_succ]
      simp [hcr]
    simp [SNESEmulator.run_frame, hr, hl]
  · intro e he
    simp [SNESEmulator.start, he]

/-- Claim C4, witness: the amended theorem evaluated on a concrete CPU
about to execute BRK and on the concrete halted running emulator. -/
theorem claim4_witness :
    (CPU.execute brkCpu = some (7,
      { brkCpu with PC := brkCpu.PC + 1, running := false, clock_cycles := brkCpu.clock_cycles + 7 })) ∧
    ((haltedEmu.run_frame 1).execCount = 0 ∧
      (haltedEmu.run_frame 1).renders.length = 1 ∧
      (haltedEmu.run_frame 1).rescheduled = true) :=
  ⟨claim4_brk_halts.1 brkCpu (by decide) rfl,
   claim4_brk_halts.2.1 1 haltedEmu (by decide) rfl rfl⟩

theorem frameLoop_nop : ∀ (n : Nat) (c : CPU) (cycles count : Nat),
    c.running = true →
    (∀ a, c.PC ≤ a → a < c.PC + n → c.memory a = 0xEA) →
    c.PC + n ≤ 0x10000 →
    cycles + 2 * n = 1364 →
    frameLoop (n + 1) c cycles count =
      LoopOut.ok { c with PC := c.PC + n, clock_cycles := c.clock_cycles + 2 * n }
        1364 (count + n) := by
  intro n
  induction n with
  | zero =>
    intro c cycles count hr _ _ hcy
    have hc : cycles = 1364 := by omega
    subst hc
    rw [frameLoop_succ]
    norm_num
  | succ n ih =>
    intro c cycles count hr hm hb hcy
    rw [frameLoop_succ]
    have hcond : cycles < 1364 ∧ c.running = true := ⟨by omega, hr⟩
    rw [if_pos hcond]
    have hpc : c.PC < 0x10000 := by omega
    have hnop := execute_nop c hpc (hm c.PC (le_refl _) (by omega))
    rw [hnop]
    have hstep := ih { c with PC := c.PC + 1, clock_cycles := c.clock_cycles + 2 }
      (cycles + 2) (count + 1) hr
      (fun a ha1 ha2 => hm a
        (by have h1 : c.PC + 1 ≤ a := ha1; omega)
        (by have h2 : a < c.PC + 1 + n := ha2; omega))
      (show c.PC + 1 + n ≤ 0x10000 by omega)
      (show cycles + 2 + 2 * n = 1364 by omega)
    dsimp only at hstep ⊢
    rw [hstep]
    have e1 : c.PC + 1 + n = c.PC + (n + 1) := by omega
    have e2 : c.clock_cycles + 2 + 2 * n = c.clock_cycles + 2 * (n + 1) := by omega
    have e3 : count + 1 + n = count + (n + 1) := by omega
    rw [e1, e2, e3]

/-- Claim C6: when memory from the current PC onward is filled with NOP
opcodes (0xEA, 2 cycles each) and the CPU is not halted, one scheduler
tick of a running emulator executes exactly 682 = 1364 / 2 NOP
instructions — the cycle loop stops at the first point the accumulated
count reaches the 1364-cycle budget — and then performs exactly one
render pass. -/
theorem claim6_frame_budget (e : SNESEmulator) (hr : e.running = true)
    (hcr : e.cpu.running = true)
    (hm : ∀ a, e.cpu.PC ≤ a → a < e.cpu.PC + 682 → e.cpu.memory a = 0xEA)
    (hb : e.cpu.PC + 682 ≤ 0x10000) :
    (e.run_frame 683).execCount = 682 ∧ (e.run_frame 683).renders.length = 1 := by
  have hl := frameLoop_nop 682 e.cpu 0 0 hcr hm hb (by norm_num)
  norm_num at hl
  simp [SNESEmulator.run_frame, hr, hl]

/-- Claim C6, witness: the theorem evaluated on a running emulator whose
memory is entirely NOPs. -/
theorem claim6_witness :
    (nopEmu.run_frame 683).execCount = 682 ∧
    (nopEmu.run_frame 683).renders.length = 1 :=
  claim6_frame_budget nopEmu rfl rfl (fun _ _ _ => rfl) (by decide)

theorem Inv_write_byte {c : CPU} {a v : Nat} {c2 : CPU} (h : CPU.Inv c)
    (he : c.write_byte a v = some c2) : CPU.Inv c2 := by
  unfold CPU.write_byte at he
  split at he
  · obtain rfl : _ = c2 := Option.some.inj he
    refine ⟨fun x => ?_, h.2⟩
    by_cases hx : x = a
    · have hb : v &&& 0xFF < 2 ^ 8 := Nat.and_lt_two_pow v (by norm_num)
      simpa [hx] using hb
    · simpa [hx] using h.1 x
  · exact absurd he (by simp)

theorem Inv_write_word {c : CPU} {a v : Nat} {c2 : CPU} (h : CPU.Inv c)
    (he : c.write_word a v = some c2) : CPU.Inv c2 := by
  unfold CPU.write_word at he
  cases hw1 : c.write_byte a v with
  | none => rw [hw1] at he; simp at he
  | some c1 =>
    rw [hw1] at he
    simp only [Option.bind_eq_bind, Option.some_bind] at he
    exact Inv_write_byte (Inv_write_byte h hw1) he

theorem Inv_LDA_immediate {c : CPU} {k : Nat} {c2 : CPU} (h : CPU.Inv c)
    (he : c.LDA_immediate = some (k, c2)) : CPU.Inv c2 := by
  unfold CPU.LDA_immediate at he
  by_cases hpc : c.PC < 0x10000
  · rw [fetch_byte_eq c hpc] at he
    simp at he
    obtain ⟨hk, hc2⟩ := he
    subst hc2
    exact ⟨h.1, h.1 c.PC⟩
  · simp [CPU.fetch_byte, hpc] at he

theorem fetch_byte_some {c : CPU} {v : Nat} {c1 : CPU}
    (h : c.fetch_byte = some (v, c1)) :
    c1.memory = c.memory ∧ c1.A = c.A ∧ v = c.memory c.PC := by
  unfold CPU.fetch_byte at h
  split at h
  · injection h with hp
    injection hp with h1 h2
    subst h2
    subst h1
    exact ⟨rfl, rfl, rfl⟩
  · exact absurd h (by simp)

theorem fetch_byte_inv {c : CPU} {v : Nat} {c1 : CPU} (h : CPU.Inv c)
    (hf : c.fetch_byte = some (v, c1)) : CPU.Inv c1 ∧ v < 256 := by
  obtain ⟨hm, hA, hv⟩ := fetch_byte_some hf
  refine ⟨⟨fun a => ?_, ?_⟩, ?_⟩
  · rw [hm]; exact h.1 a
  · rw [hA]; exact h.2
  · rw [hv]; exact h.1 _

theorem read_byte_some {c : CPU} {addr v : Nat}
    (h : c.read_byte addr = some v) : v = c.memory addr := by
  unfold CPU.read_byte at h
  split at h
  · exact (Option.some.inj h).symm
  · exact absurd h (by simp)

theorem Inv_LDA_absolute {c : CPU} {k : Nat} {c2 : CPU} (h : CPU.Inv c)
    (he : c.LDA_absolute = some (k, c2)) : CPU.Inv c2 := by
  unfold CPU.LDA_absolute at he
  simp only [Option.bind_eq_bind, Option.pure_def] at he
  obtain ⟨⟨lo, ca⟩, hf1, he⟩ := Option.bind_eq_some.mp he
  dsimp only at he
  obtain ⟨⟨hi, cb⟩, hf2, he⟩ := Option.bind_eq_some.mp he
  dsimp only at he
  obtain ⟨v, hv, he⟩ := Option.bind_eq_some.mp he
  injection he with hp
  injection hp with hk hc2
  subst hc2
  obtain ⟨hinv1, _⟩ := fetch_byte_inv h hf1
  obtain ⟨hinv2, _⟩ := fetch_byte_inv hinv1 hf2
  have hv2 := read_byte_some hv
  refine ⟨hinv2.1, ?_⟩
  show v < 256
  rw [hv2]
  exact hinv2.1 _

theorem Inv_STA_absolute {c : CPU} {k : Nat} {c2 : CPU} (h : CPU.Inv c)
    (he : c.STA_absolute = some (k, c2)) : CPU.Inv c2 := by
  unfold CPU.STA_absolute at he
  simp only [Option.bind_eq_bind, Option.pure_def] at he
  obtain ⟨⟨lo, ca⟩, hf1, he⟩ := Option.bind_eq_some.mp he
  dsimp only at he
  obtain ⟨⟨hi, cb⟩, hf2, he⟩ := Option.bind_eq_some.mp he
  dsimp only at he
  obtain ⟨c3, hw, he⟩ := Option.bind_eq_some.mp he
  injection he with hp
  injection hp with hk hc2
  subst hc2
  obtain ⟨hinv1, _⟩ := fetch_byte_inv h hf1
  obtain ⟨hinv2, _⟩ := fetch_byte_inv hinv1 hf2
  exact Inv_write_byte hinv2 hw

theorem Inv_JMP_absolute {c : CPU} {k : Nat} {c2 : CPU} (h : CPU.Inv c)
    (he : c.JMP_absolute = some (k, c2)) : CPU.Inv c2 := by
  unfold CPU.JMP_absolute at he
  simp only [Option.bind_eq_bind, Option.pure_def] at he
  obtain ⟨⟨lo, ca⟩, hf1, he⟩ := Option.bind_eq_some.mp he
  dsimp only at he
  obtain ⟨⟨hi, cb⟩, hf2, he⟩ := Option.bind_eq_some.mp he
  dsimp only at he
  injection he with hp
  injection hp with hk hc2
  subst hc2
  obtain ⟨hinv1, _⟩ := fetch_byte_inv h hf1
  obtain ⟨hinv2, _⟩ := fetch_byte_inv hinv1 hf2
  exact ⟨hinv2.1, hinv2.2⟩

theorem Inv_NOP {c : CPU} {k : Nat} {c2 : CPU} (h : CPU.Inv c)
    (he : c.NOP = some (k, c2)) : CPU.Inv c2 := by
  unfold CPU.NOP at he
  simp at he
  obtain ⟨hk, hc2⟩ := he
  subst hc2
  exact h

theorem Inv_BRK {c : CPU} {k : Nat} {c2 : CPU} (h : CPU.Inv c)
    (he : c.BRK = some (k, c2)) : CPU.Inv c2 := by
  unfold CPU.BRK at he
  simp at he
  obtain ⟨hk, hc2⟩ := he
  subst hc2
  exact ⟨h.1, h.2⟩

theorem Inv_handler (op : Nat) {f : CPU → Option (Nat × CPU)}
    (hop : CPU.opcodeHandler op = some f) :
    ∀ {c : CPU} {k : Nat} {c2 : CPU}, CPU.Inv c → f c = some (k, c2) → CPU.Inv c2 := by
  unfold CPU.opcodeHandler at hop
  split_ifs at hop
  · injection hop with hf; subst hf; exact fun h he => Inv_LDA_immediate h he
  · injection hop with hf; subst hf; exact fun h he => Inv_LDA_absolute h he
  · injection hop with hf; subst hf; exact fun h he => Inv_STA_absolute h he
  · injection hop with hf; subst hf; exact fun h he => Inv_JMP_absolute h he
  · injection hop with hf; subst hf; exact fun h he => Inv_NOP h he
  · injection hop with hf; subst hf; exact fun h he => Inv_BRK h he

theorem Inv_execute {c : CPU} {k : Nat} {c2 : CPU} (h : CPU.Inv c)
    (he : c.execute = some (k, c2)) : CPU.Inv c2 := by
  unfold CPU.execute at he
  simp only [Option.bind_eq_bind, Option.pure_def] at he
  obtain ⟨⟨op, c1⟩, hf, he⟩ := Option.bind_eq_some.mp he
  dsimp only at he
  obtain ⟨hinv1, _⟩ := fetch_byte_inv h hf
  cases hop : CPU.opcodeHandler op with
  | none =>
    rw [hop] at he
    dsimp only at he
    injection he with hp
    injection hp with hk hc2
    subst hc2
    exact hinv1
  | some f =>
    rw [hop] at he
    dsimp only at he
    obtain ⟨⟨cy, c3⟩, hh, he⟩ := Option.bind_eq_some.mp he
    dsimp only at he
    injection he with hp
    injection hp with hk hc2
    subst hc2
    exact @Inv_handler op f hop c1 cy c3 hinv1 hh

theorem Inv_step {c c2 : CPU} (h : CPU.Inv c) (hs : EmuStep c c2) : CPU.Inv c2 := by
  cases hs with
  | exec k c c2 he => exact Inv_execute h he
  | wbyte a v c c2 he => exact Inv_write_byte h he
  | wword a v c c2 he => exact Inv_write_word h he

/-- Claim C10: every memory write masks the stored value to 8 bits and A
is only ever assigned bytes read from memory, so after any sequence of
successful `execute()`, `write_byte` and `write_word` calls starting
from a fresh CPU, every memory cell and the A register hold a value in
[0, 255]. -/
theorem claim10_byte_invariant (c : CPU)
    (h : Relation.ReflTransGen EmuStep initCPU c) : CPU.Inv c := by
  induction h with
  | refl => exact initCPU_inv
  | tail _ hs ih => exact Inv_step ih hs

/-- Claim C10, witness: the invariant evaluated at the empty call
sequence, i.e. on the freshly constructed CPU. -/
theorem claim10_witness : CPU.Inv initCPU :=
  claim10_byte_invariant initCPU Relation.ReflTransGen.refl

theorem decodeColorIdx_le_three (p0 p1 tx : Nat) : decodeColorIdx p0 p1 tx ≤ 3 := by
  unfold decodeColorIdx
  have ha : (p1 >>> (7 - tx)) &&& 1 ≤ 1 := Nat.and_le_right
  have hb : (p0 >>> (7 - tx)) &&& 1 ≤ 1 := Nat.and_le_right
  have hx : ((p1 >>> (7 - tx)) &&& 1) <<< 1 < 2 ^ 2 := by
    rw [Nat.shiftLeft_eq]
    omega
  have hy : (p0 >>> (7 - tx)) &&& 1 < 2 ^ 2 := by omega
  have := Nat.or_lt_two_pow hx hy
  omega

theorem renderRowCols_eq (pal : List RGB) (x y ty p0 p1 : Nat) (hpal : 4 ≤ pal.length) :
    ∀ txs : List Nat,
      renderRowCols pal x y ty p0 p1 txs =
        some ((txs.filter fun t => decide (0 < decodeColorIdx p0 p1 t)).map
          fun t => (⟨x + t, y + ty, decodeColorIdx p0 p1 t,
            pal.getD (decodeColorIdx p0 p1 t) ((0, 0, 0))⟩ : Pixel)) := by
  intro txs
  induction txs with
  | nil => rfl
  | cons t rest ih =>
    have hlt : decodeColorIdx p0 p1 t < pal.length := by
      have := decodeColorIdx_le_three p0 p1 t
      omega
    have hlook : paletteLookup pal (decodeColorIdx p0 p1 t) =
        some (pal.getD (decodeColorIdx p0 p1 t) ((0, 0, 0))) := by
      unfold paletteLookup
      rw [List.getD_eq_get?, List.get?_eq_get hlt]
      rfl
    by_cases ht : 0 < decodeColorIdx p0 p1 t
    · rw [List.filter_cons_of_pos (by simpa using ht), List.map_cons]
      simp only [renderRowCols]
      rw [if_pos ht, hlook, ih]
    · rw [List.filter_cons_of_neg (by simpa using ht)]
      simp only [renderRowCols]
      rw [if_neg ht, ih]

theorem countP_paint (pal : List RGB) (x y ty p0 p1 tx : Nat) :
    ∀ txs : List Nat, txs.Nodup →
      (((txs.filter fun t => decide (0 < decodeColorIdx p0 p1 t)).map
        fun t => (⟨x + t, y + ty, decodeColorIdx p0 p1 t,
          pal.getD (decodeColorIdx p0 p1 t) ((0, 0, 0))⟩ : Pixel)).countP
        fun q => decide (q.px = x + tx ∧ q.py = y + ty)) =
      if tx ∈ txs ∧ 0 < decodeColorIdx p0 p1 tx then 1 else 0 := by
  intro txs
  induction txs with
  | nil => simp
  | cons t rest ih =>
    intro hnd
    obtain ⟨htr, hndr⟩ := List.nodup_cons.mp hnd
    by_cases hpt : 0 < decodeColorIdx p0 p1 t
    · rw [List.filter_cons_of_pos (by simpa using hpt), List.map_cons,
        List.countP_cons, ih hndr]
      by_cases htx : t = tx
      · subst htx
        simp [htr, hpt]
      · have hne : ¬(x + t = x + tx ∧ y + ty = y + ty) := fun hc => htx (by omega)
        have htx2 : ¬(tx = t) := fun hq => htx hq.symm
        simp [hne, List.mem_cons, htx2, htx]
    · rw [List.filter_cons_of_neg (by simpa using hpt), ih hndr]
      by_cases htx : t = tx
      · subst htx
        simp [htr, hpt]
      · have htx2 : ¬(tx = t) := fun hq => htx hq.symm
        simp [List.mem_cons, htx2]

/-- Claim C5: for all plane bytes and every column index `col < 8` with
`bit = 7 - col`, the decoded color index equals
`((plane1 >> bit) & 1) << 1 | ((plane0 >> bit) & 1)`, a value in [0, 3];
in the painted output of the row, index 0 paints no pixel at that column
while a nonzero index paints exactly one pixel at
`(tile_x + col, tile_y + row)`, colored `palette[color_index]`. -/
theorem claim5_tile_decode (pal : List RGB) (hpal : 4 ≤ pal.length)
    (x y ty p0 p1 tx : Nat) (htx : tx < 8) :
    decodeColorIdx p0 p1 tx =
      (((p1 >>> (7 - tx)) &&& 1) <<< 1) ||| ((p0 >>> (7 - tx)) &&& 1) ∧
    decodeColorIdx p0 p1 tx ≤ 3 ∧
    ∀ l, renderRow pal x y ty p0 p1 = some l →
      ((l.countP fun q => decide (q.px = x + tx ∧ q.py = y + ty)) =
        if 0 < decodeColorIdx p0 p1 tx then 1 else 0) ∧
      ∀ pix ∈ l, pix.px = x + tx →
        pix.idx = decodeColorIdx p0 p1 tx ∧
        pix.color = pal.getD (decodeColorIdx p0 p1 tx) ((0, 0, 0)) := by
  refine ⟨rfl, decodeColorIdx_le_three p0 p1 tx, ?_⟩
  intro l hl
  rw [renderRow, renderRowCols_eq pal x y ty p0 p1 hpal (List.range 8)] at hl
  injection hl with hl
  subst hl
  constructor
  · rw [countP_paint pal x y ty p0 p1 tx (List.range 8) (List.nodup_range 8)]
    simp [List.mem_range, htx]
  · intro pix hmem hpx
    obtain ⟨t, htf, hpaint⟩ := List.mem_map.mp hmem
    subst hpaint
    have htt : t = tx := by
      have : x + t = x + tx := hpx
      omega
    subst htt
    exact ⟨rfl, rfl⟩

/-- Claim C5, witness: the theorem evaluated on the test pattern row
`plane0 = 0xAA`, `plane1 = 0x55` with the demo palette, at column 0. -/
theorem claim5_witness :
    (((renderRow fourPal 0 0 0 0xAA 0x55).getD []).countP
        fun q => decide (q.px = 0 + 0 ∧ q.py = 0 + 0)) =
      (if 0 < decodeColorIdx 0xAA 0x55 0 then 1 else 0) :=
  ((claim5_tile_decode fourPal (by decide) 0 0 0 0xAA 0x55 0 (by decide)).2.2
    ((renderRow fourPal 0 0 0 0xAA 0x55).getD []) rfl).1

theorem renderRow_pixels (pal : List RGB) (x y ty p0 p1 : Nat)
    (hpal : 4 ≤ pal.length) :
    ∃ l, renderRow pal x y ty p0 p1 = some l ∧
      ∀ pix ∈ l, 1 ≤ pix.idx ∧ pix.idx ≤ 3 := by
  refine ⟨_, renderRowCols_eq pal x y ty p0 p1 hpal (List.range 8), ?_⟩
  intro pix hmem
  obtain ⟨t, htf, hpaint⟩ := List.mem_map.mp hmem
  obtain ⟨_, htpos⟩ := List.mem_filter.mp htf
  subst hpaint
  have h3 := decodeColorIdx_le_three p0 p1 t
  have h1 : 0 < decodeColorIdx p0 p1 t := by simpa using htpos
  exact ⟨h1, h3⟩

theorem renderTileRows_ok (p : PPU) (hpal : 4 ≤ p.palette.length)
    (x y ta : Nat) (hta : ta + 15 < 0x8000) :
    ∀ tys : List Nat, (∀ t ∈ tys, t < 8) →
      ∃ l, p.renderTileRows x y ta tys = some l ∧
        ∀ pix ∈ l, 1 ≤ pix.idx ∧ pix.idx ≤ 3 := by
  intro tys
  induction tys with
  | nil => exact fun _ => ⟨[], rfl, by simp⟩
  | cons t rest ih =>
    intro hb
    have ht : t < 8 := hb t (List.mem_cons_self t rest)
    have h0 : ta + 2 * t < 0x8000 := by omega
    have h1 : ta + 2 * t + 1 < 0x8000 := by omega
    obtain ⟨lr, hlr, hlr2⟩ :=
      renderRow_pixels p.palette x y t (p.vram (ta + 2 * t)) (p.vram (ta + 2 * t + 1)) hpal
    obtain ⟨lrest, hrest, hrest2⟩ := ih (fun u hu => hb u (List.mem_cons_of_mem t hu))
    refine ⟨lr ++ lrest, ?_, ?_⟩
    · simp [PPU.renderTileRows, PPU.vramRead, h0, h1, hlr, hrest]
    · intro pix hm
      rcases List.mem_append.mp hm with hcase | hcase
      · exact hlr2 pix hcase
      · exact hrest2 pix hcase

theorem render_tile_ok (p : PPU) (hpal : 4 ≤ p.palette.length)
    (x y tile_idx : Nat) (htidx : tile_idx < 256) :
    ∃ l, p.render_tile x y tile_idx = some l ∧
      ∀ pix ∈ l, 1 ≤ pix.idx ∧ pix.idx ≤ 3 := by
  unfold PPU.render_tile
  exact renderTileRows_ok p hpal x y (tile_idx * 16) (by omega)
    (List.range 8) (fun t htm => List.mem_range.mp htm)

theorem renderCells_ok (p : PPU) (hw : ∀ a, p.vram a < 256)
    (hpal : 4 ≤ p.palette.length) :
    ∀ cells : List (Nat × Nat), (∀ cl ∈ cells, cl.1 * 32 + cl.2 < 0x8000) →
      ∃ l, p.renderCells cells = some l ∧
        ∀ pix ∈ l, 1 ≤ pix.idx ∧ pix.idx ≤ 3 := by
  intro cells
  induction cells with
  | nil => exact fun _ => ⟨[], rfl, by simp⟩
  | cons cl rest ih =>
    intro hb
    obtain ⟨yy, xx⟩ := cl
    have hcl : yy * 32 + xx < 0x8000 := hb (yy, xx) (List.mem_cons_self _ rest)
    obtain ⟨lt, hlt, hlt2⟩ :=
      render_tile_ok p hpal (xx * 8) (yy * 8) (p.vram (yy * 32 + xx)) (hw _)
    obtain ⟨lrest, hrest, hrest2⟩ := ih (fun u hu => hb u (List.mem_cons_of_mem _ hu))
    refine ⟨lt ++ lrest, ?_, ?_⟩
    · simp [PPU.renderCells, PPU.vramRead, hcl, hlt, hrest]
    · intro pix hm
      rcases List.mem_append.mp hm with hcase | hcase
      · exact hlt2 pix hcase
      · exact hrest2 pix hcase

theorem cellList_bound : ∀ cl ∈ cellList, cl.1 * 32 + cl.2 < 0x8000 := by
  intro cl hm
  unfold cellList at hm
  simp only [List.mem_flatMap, List.mem_map, List.mem_range] at hm
  obtain ⟨yy, hy, xx, hx, rfl⟩ := hm
  dsimp
  omega

/-- Claim C9: for every vram and palette contents (with the palette
holding at least the four 2-bit colors), a full `render_frame` over the
32×28 grid performs only in-range vram and palette accesses — the
rendering computation never fails — and every painted pixel was selected
by a palette index in [1, 3]. -/
theorem claim9_render_in_bounds (p : PPU) (hw : ∀ a, p.vram a < 256)
    (hpal : 4 ≤ p.palette.length) :
    (p.render_frame).isSome = true ∧
    ∀ l, p.render_frame = some l → ∀ pix ∈ l, 1 ≤ pix.idx ∧ pix.idx ≤ 3 := by
  obtain ⟨l, hl, hprop⟩ := renderCells_ok p hw hpal cellList cellList_bound
  constructor
  · rw [PPU.render_frame, hl]
    rfl
  · intro l2 hl2 pix hm
    rw [PPU.render_frame, hl] at hl2
    injection hl2 with hq
    subst hq
    exact hprop pix hm

/-- Claim C9, witness: the theorem evaluated on the freshly constructed
PPU (zeroed vram, 256-entry palette). -/
theorem claim9_witness : (initPPU.render_frame).isSome = true :=
  (claim9_render_in_bounds initPPU (fun _ => Nat.succ_pos 255)
    (by norm_num [initPPU])).1
